import Mathlib

/-!
# Verification of the voice-memo-to-doc processing pipeline

Shallow embedding of `src/util.py` (the processing pipeline of the
voice-memo-to-doc repository): the `textwrap.wrap`-based chunker used by
`TranscriptionService.clean_text`, the cleanup loop, the Google Docs
append protocol of `GoogleDocsService.append_text`, the credential
lifecycle of `GoogleDocsService._get_credentials`, and the orchestrator
`AudioProcessor.process_files`.

Text is modelled as `List Char`.  External providers (OpenAI, the Google
Docs backend, the OAuth endpoints) are modelled as oracles supplied in an
environment record; each oracle returns `Except` to model the provider
call either returning a value or raising, exactly as the Python code
observes it.
-/

set_option autoImplicit false

namespace VMemo

/-- Text is a list of characters. -/
abbrev Str := List Char

/-! ## The `textwrap` model

`clean_text` calls `textwrap.wrap(text, GPT_CHUNK_SIZE)` with default
settings.  We embed CPython's `textwrap.TextWrapper.wrap` for those
settings: `expand_tabs=True` (tabsize 8), `replace_whitespace=True`,
`drop_whitespace=True`, `break_long_words=True`, `fix_sentence_endings=False`,
`max_lines=None`, empty indents.  Whitespace is the six ASCII whitespace
characters that `textwrap`'s `_munge_whitespace` translates
(`'\t\n\x0b\x0c\r '`); non-ASCII Unicode whitespace is outside the model.
`break_on_hyphens` (which only adds extra legal break points after
hyphens inside hyphenated words) is not modelled; every claim settled
below is insensitive to it (the inputs involved contain no hyphens, and
the proved bounds and content-preservation properties hold with or
without the extra break points).

The two loops of `_wrap_chunks` and `_split` are written with an explicit
fuel argument (a structural-termination counter); `wrap` and
`split_chunks` supply fuel that provably exceeds the number of loop
iterations, so the fuel never runs out on the arguments they pass. -/

/-- The whitespace characters handled by `textwrap._munge_whitespace`
(`string.whitespace` = `'\t\n\x0b\x0c\r '`). -/
def isSpaceChar (c : Char) : Bool :=
  c = ' ' || c = '\t' || c = '\n' || c = '\x0b' || c = '\x0c' || c = '\r'

/-- The non-whitespace characters of a text, in order. -/
def nonWs (s : Str) : Str := s.filter (fun c => !isSpaceChar c)

/-- `chunk.strip() == ''`: the chunk consists of whitespace only. -/
def isWsChunk (c : Str) : Bool := c.all isSpaceChar

/-- `str.expandtabs(tabsize)`: replace each tab by spaces up to the next
multiple of `tabsize`, tracking the current column, which resets after a
newline or carriage return. -/
def expandTabsGo (tabsize : Nat) : Str → Nat → Str
  | [], _ => []
  | c :: cs, col =>
    if c = '\t' then
      if 0 < tabsize then
        let pad := tabsize - col % tabsize
        List.replicate pad ' ' ++ expandTabsGo tabsize cs (col + pad)
      else expandTabsGo tabsize cs col
    else if c = '\n' || c = '\r' then c :: expandTabsGo tabsize cs 0
    else c :: expandTabsGo tabsize cs (col + 1)

/-- `text.expandtabs(self.tabsize)` with the default `tabsize=8`. -/
def expandTabs (s : Str) : Str := expandTabsGo 8 s 0

/-- `text.translate(unicode_whitespace_trans)`: each whitespace character
becomes a single space. -/
def replaceWsChar (c : Char) : Char := if isSpaceChar c then ' ' else c

/-- `TextWrapper._munge_whitespace`: expand tabs, then replace each
whitespace character by a space. -/
def munge_whitespace (s : Str) : Str := (expandTabs s).map replaceWsChar

/-- Two characters belong to the same run (both whitespace or both not). -/
def wsClassEq (c d : Char) : Bool := isSpaceChar c == isSpaceChar d

/-- Loop of `TextWrapper._split`: split the text into maximal runs of
whitespace / non-whitespace characters (the result of
`re.split(r'(\s+)', text)` with empty strings discarded).  `fuel`
bounds the number of runs; `split_chunks` supplies enough. -/
def split_chunksGo : Nat → Str → List Str
  | 0, _ => []
  | _ + 1, [] => []
  | fuel + 1, c :: cs =>
    ((c :: cs).takeWhile (wsClassEq c)) ::
      split_chunksGo fuel ((c :: cs).dropWhile (wsClassEq c))

/-- `TextWrapper._split` (word-boundary splitting into alternating word
and whitespace chunks). -/
def split_chunks (s : Str) : List Str := split_chunksGo s.length s

/-- Total length of a list of chunks. -/
def sumLen (l : List Str) : Nat := (l.map List.length).sum

/-- Termination measure of the `_wrap_chunks` loop: total characters
plus number of chunks. -/
def chunksMeasure (l : List Str) : Nat := sumLen l + l.length

/-- Inner loop of `_wrap_chunks`: greedily move chunks to the current
line while `cur_len + len(chunk) <= width`.  Returns the taken prefix
and the remaining chunks. -/
def takeFit (w : Nat) : Nat → List Str → List Str × List Str
  | _, [] => ([], [])
  | cur, c :: cs =>
    if cur + c.length ≤ w then
      let p := takeFit w (cur + c.length) cs
      (c :: p.1, p.2)
    else ([], c :: cs)

/-- `if cur_line and cur_line[-1].strip() == '': del cur_line[-1]` —
drop a trailing all-whitespace chunk from the current line. -/
def dropLastWs (l : List Str) : List Str :=
  match l.getLast? with
  | some c => if isWsChunk c then l.dropLast else l
  | none => l

/-- `TextWrapper._handle_long_word` with `break_long_words=True`: when
the next remaining chunk is longer than the width, move its first
`space_left` characters onto the current line (the pair is
`(cur_line, remaining chunks)`). -/
def handleLong (w : Nat) (p : List Str × List Str) : List Str × List Str :=
  match p.2 with
  | [] => p
  | r :: rs =>
    if w < r.length then
      let spaceLeft := if w < 1 then 1 else w - sumLen p.1
      (p.1 ++ [r.take spaceLeft], r.drop spaceLeft :: rs)
    else p

/-- Outer loop of `TextWrapper._wrap_chunks` (defaults: empty indents,
`drop_whitespace=True`, `break_long_words=True`, `max_lines=None`).
Each iteration: drop a leading whitespace chunk once at least one line
exists; greedily fill the current line; if the next chunk is longer than
the width, `_handle_long_word` moves its first `space_left` characters
onto the line; drop a trailing whitespace chunk; emit the line if it is
non-empty.  `fuel` bounds the iteration count; `wrap` supplies enough. -/
def wrap_chunksGo (w : Nat) : Nat → Bool → List Str → List Str
  | 0, _, _ => []
  | _ + 1, _, [] => []
  | fuel + 1, hasLines, c0 :: cs0 =>
    let chunks1 := if hasLines && isWsChunk c0 then cs0 else c0 :: cs0
    let q := handleLong w (takeFit w 0 chunks1)
    let curLine := dropLastWs q.1
    if curLine.isEmpty then wrap_chunksGo w fuel hasLines q.2
    else curLine.flatten :: wrap_chunksGo w fuel true q.2

/-- `textwrap.wrap(text, width)` with default settings (as called by
`clean_text`; the Python function raises for `width <= 0`, a case the
program never exercises since it always passes `GPT_CHUNK_SIZE`). -/
def wrap (width : Nat) (text : Str) : List Str :=
  let chunks := split_chunks (munge_whitespace text)
  wrap_chunksGo width (chunksMeasure chunks + 1) false chunks

/-! ## `TranscriptionService.clean_text`

The OpenAI chat-completion call is an oracle
`complete : system message → user message → Except PError Str`:
`Except.error` models the call raising, which `clean_text` logs and
re-raises (`except Exception as e: ... raise`), so the first failing
chunk's error propagates to the caller and no partial output is
returned. -/

/-- Provider-call failures observed by the pipeline, named as in the
spec's error taxonomy (the Python code re-raises the provider's own
exception; the kind records which call raised). -/
inductive PError
  | transcriptionError
  | cleanupError
  | documentError
deriving DecidableEq, Repr

/-- The fixed system instruction of the cleanup call. -/
def systemContent : Str :=
  "You are a helpful assistant who cleans up and formats transcriptions.".data

/-- The fixed user-instruction template with the chunk embedded verbatim. -/
def userContent (chunk : Str) : Str :=
  ("Please clean up the following transcription by fixing any misspellings, " ++
   "adding line breaks, paragraph breaks, and appropriate punctuation:\n\n").data ++ chunk

/-- The `for chunk in chunks` loop of `clean_text`: one completion call
per chunk, in order, stopping at the first failure.  Returns the cleaned
chunks (or the first error) together with the number of provider calls
issued. -/
def cleanLoop (complete : Str → Str → Except PError Str) :
    List Str → Except PError (List Str) × Nat
  | [] => (Except.ok [], 0)
  | c :: cs =>
    match complete systemContent (userContent c) with
    | Except.error e => (Except.error e, 1)
    | Except.ok r =>
      let p := cleanLoop complete cs
      (p.1.map (fun rs => r :: rs), p.2 + 1)

/-- `'\n'.join(cleaned_chunks)`. -/
def joinNl (l : List Str) : Str := (l.intersperse "\n".data).flatten

/-- The chunk size passed to `textwrap.wrap` by `clean_text`. -/
def GPT_CHUNK_SIZE : Nat := 2000

/-- `TranscriptionService.clean_text`: split the text with
`textwrap.wrap(text, GPT_CHUNK_SIZE)`, clean each chunk with one
completion call, join the cleaned chunks with single newlines. -/
def clean_text (complete : Str → Str → Except PError Str) (text : Str) :
    Except PError Str :=
  ((cleanLoop complete (wrap GPT_CHUNK_SIZE text)).1).map joinNl

/-- Number of completion calls a `clean_text` run issues. -/
def cleanCallCount (complete : Str → Str → Except PError Str) (text : Str) : Nat :=
  (cleanLoop complete (wrap GPT_CHUNK_SIZE text)).2

/-! ## `GoogleDocsService`: document model and append protocol

The remote document is modelled by its body text.  Following the Google
Docs structural convention, the body of a document holds characters at
1-based indices `1 .. content.length`, always ends with an implicit
trailing newline character, and the last structural element of
`body.content` has `endIndex = content.length + 1`.  A freshly created
document's body is the single implicit newline.  `insertText index t`
inserts `t` before the character at 1-based position `index`
(the `insertText` request of a `batchUpdate`). -/

/-- The remote Google Doc's body text (its final character is the
implicit trailing newline). -/
structure GDoc where
  content : Str
deriving DecidableEq, Repr

/-- A newly created document: body is the single implicit newline. -/
def freshDoc : GDoc := ⟨"\n".data⟩

/-- `document['body']['content'][-1]['endIndex']`: one past the last
character of the body. -/
def lastEndIndex (d : GDoc) : Nat := d.content.length + 1

/-- The `insertText` batch-update request at a 1-based index. -/
def insertText (d : GDoc) (index : Nat) (t : Str) : GDoc :=
  ⟨d.content.take (index - 1) ++ t ++ d.content.drop (index - 1)⟩

/-- `GoogleDocsService.append_text`: fetch the document, compute the
insertion index as `end_index - 1` (one before the end of the last
content block), and issue a single batched insert-text request there. -/
def append_text (d : GDoc) (text : Str) : GDoc :=
  insertText d (lastEndIndex d - 1) text

/-- `{'id': ..., 'url': ...}` as returned by `create_document`. -/
structure DocInfo where
  id : Str
  url : Str
deriving DecidableEq, Repr

/-- `f"https://docs.google.com/document/d/{doc_id}/edit"`. -/
def docUrl (docId : Str) : Str :=
  "https://docs.google.com/document/d/".data ++ docId ++ "/edit".data

/-! ## `GoogleDocsService._get_credentials`

The persisted token file, the OAuth refresh endpoint, the interactive
consent flow and the token-file write are external effects; the
environment fixes their outcomes.  `Credentials.from_authorized_user_file`
raises on an unparseable file — `_get_credentials` does not guard that
call, so a corrupt token file propagates as an error.  The returned
event list records, in order, the network calls made and the token-file
write performed. -/

/-- The credential attributes `_get_credentials` inspects (`valid`,
`expired`, `refresh_token`), plus an identifier so distinct credentials
can be told apart. -/
structure Creds where
  tokenId : Str
  valid : Bool
  expired : Bool
  hasRefreshToken : Bool
deriving DecidableEq, Repr

/-- State of the persisted token file: missing, present but unparseable,
or parsing to a credential. -/
inductive TokenFile
  | absent
  | corrupt
  | parsed (c : Creds)
deriving DecidableEq, Repr

/-- Errors surfaced by the credential path. -/
inductive AuthError
  | parseError
  | refreshError
  | flowError
  | writeError
deriving DecidableEq, Repr

/-- Observable side effects of `_get_credentials`. -/
inductive AuthEvent
  | refreshCall
  | flowCall
  | tokenWrite
deriving DecidableEq, Repr

/-- Outcomes of the external auth effects. -/
structure AuthEnv where
  tokenFile : TokenFile
  refreshResult : Creds → Except AuthError Creds
  flowResult : Except AuthError Creds
  writeOk : Bool

/-- `GoogleDocsService._get_credentials`.  Mirrors the Python control
flow: load the token file if it exists (an unparseable file raises);
if no credential or an invalid one, refresh when expired with a refresh
token, otherwise run the consent flow; then write the token file; return
the credential together with the list of effects performed. -/
def get_credentials (env : AuthEnv) : Except AuthError (Creds × List AuthEvent) :=
  match env.tokenFile with
  | TokenFile.corrupt =>
    -- `Credentials.from_authorized_user_file` raises on an unparseable
    -- file and `_get_credentials` does not catch it
    Except.error AuthError.parseError
  | TokenFile.parsed c =>
    if c.valid then Except.ok (c, [])
    else
      match (if c.expired && c.hasRefreshToken
             then (env.refreshResult c).map (fun r => (r, AuthEvent.refreshCall))
             else env.flowResult.map (fun r => (r, AuthEvent.flowCall))) with
      | Except.error e => Except.error e
      | Except.ok (c2, ev) =>
        if env.writeOk then Except.ok (c2, [ev, AuthEvent.tokenWrite])
        else Except.error AuthError.writeError
  | TokenFile.absent =>
    -- `creds` is `None`: run the interactive consent flow, then persist
    match env.flowResult with
    | Except.error e => Except.error e
    | Except.ok r =>
      if env.writeOk then Except.ok (r, [AuthEvent.flowCall, AuthEvent.tokenWrite])
      else Except.error AuthError.writeError

/-! ## `AudioProcessor.process_files`

The orchestrator: create one document, then for each file in input
order: build the metadata header from the file's stat, transcribe,
clean, format, append to the shared document, and record a
`ProcessingResult`.  Any provider failure propagates immediately
(`Except.error`), so the caller never receives a partial result list.
Besides the run's result, the embedding returns the final remote
document state and the list of files whose processing was attempted,
in order. -/

/-- `ProcessingResult` of `util.py`. -/
structure ProcessingResult where
  file : Str
  transcription_text : Str
  doc_id : Str
  doc_url : Str
deriving DecidableEq, Repr

/-- Fixed outcomes of the external collaborators seen by one run:
the document id the provider assigns at creation, the timestamp used
for a defaulted title, the stat-derived modification-time string of a
path, and the transcription / completion / append-call oracles. -/
structure PipeEnv where
  docId : Str
  now : Str
  mtime : Str → Str
  transcribe : Str → Except PError Str
  complete : Str → Str → Except PError Str
  appendOk : Str → Except PError Unit

/-- `GoogleDocsService.create_document`: the provider assigns the
document id; the URL is built from it.  (The title is sent to the
provider but does not influence the returned handle; a provider failure
at creation would abort the run before any file is processed and is not
exercised by any claim.) -/
def create_document (env : PipeEnv) (title : Str) : DocInfo :=
  ⟨env.docId, docUrl env.docId⟩

/-- `os.path.join(directory, file)` for a relative `file`. -/
def pathJoin (dir file : Str) : Str := dir ++ "/".data ++ file

/-- The metadata header `f"{file} {modTime}"` built from the file's stat. -/
def fileMeta (env : PipeEnv) (dir file : Str) : Str :=
  file ++ " ".data ++ env.mtime (pathJoin dir file)

/-- The per-file formatted text block
`"<file> <modTime>\n\n<cleanedText>\n---\n\n"`. -/
def formatEntry (fileMetadata cleanTranscription : Str) : Str :=
  fileMetadata ++ "\n\n".data ++ cleanTranscription ++ "\n".data ++
    "---".data ++ "\n\n".data

/-- One iteration of the `for file in files` loop, up to and including
the append provider call: metadata header, transcribe, clean, format,
append.  Returns the `ProcessingResult` and the formatted text on
success; the first failing call's error otherwise. -/
def fileOutcome (env : PipeEnv) (info : DocInfo) (dir : Str) (file : Str) :
    Except PError (ProcessingResult × Str) :=
  match env.transcribe (pathJoin dir file) with
  | Except.error e => Except.error e
  | Except.ok transcription =>
    match clean_text env.complete transcription with
    | Except.error e => Except.error e
    | Except.ok cleanTranscription =>
      let formatted := formatEntry (fileMeta env dir file) cleanTranscription
      match env.appendOk formatted with
      | Except.error e => Except.error e
      | Except.ok _ =>
        Except.ok (⟨file, cleanTranscription, info.id, info.url⟩, formatted)

/-- The `for file in files` loop of `process_files`, threading the
remote document state.  Returns the run result (result list or first
error), the final document, and the attempted files in order. -/
def runFiles (env : PipeEnv) (info : DocInfo) (dir : Str) :
    List Str → GDoc → Except PError (List ProcessingResult) × GDoc × List Str
  | [], doc => (Except.ok [], doc, [])
  | f :: fs, doc =>
    match fileOutcome env info dir f with
    | Except.error e => (Except.error e, doc, [f])
    | Except.ok (r, formatted) =>
      let doc1 := append_text doc formatted
      let p := runFiles env info dir fs doc1
      (p.1.map (fun rs => r :: rs), p.2.1, f :: p.2.2)

/-- `AudioProcessor.process_files`: resolve the title (current timestamp
when absent), create the single document of the run, then process the
files in order. -/
def process_files (env : PipeEnv) (files : List Str) (dir : Str)
    (output_title : Option Str) :
    Except PError (List ProcessingResult) × GDoc × List Str :=
  let title := output_title.getD env.now
  let info := create_document env title
  runFiles env info dir files freshDoc

/-! ## Lemmas: chunk arithmetic -/

theorem sumLen_cons (c : Str) (l : List Str) :
    sumLen (c :: l) = c.length + sumLen l := by
  simp [sumLen]

theorem sumLen_append (l₁ l₂ : List Str) :
    sumLen (l₁ ++ l₂) = sumLen l₁ + sumLen l₂ := by
  simp [sumLen]

theorem length_flatten_eq_sumLen (l : List Str) :
    l.flatten.length = sumLen l := by
  simp [sumLen, List.length_flatten]

theorem chunksMeasure_cons (c : Str) (l : List Str) :
    chunksMeasure (c :: l) = c.length + 1 + chunksMeasure l := by
  simp [chunksMeasure, sumLen_cons]; omega

theorem chunksMeasure_append (l₁ l₂ : List Str) :
    chunksMeasure (l₁ ++ l₂) = chunksMeasure l₁ + chunksMeasure l₂ := by
  simp [chunksMeasure, sumLen_append]; omega

theorem chunksMeasure_pos (c : Str) (l : List Str) :
    1 ≤ chunksMeasure (c :: l) := by
  simp [chunksMeasure_cons]; omega

/-! ## Lemmas: `nonWs` -/

theorem nonWs_append (l₁ l₂ : Str) : nonWs (l₁ ++ l₂) = nonWs l₁ ++ nonWs l₂ := by
  simp [nonWs]

theorem nonWs_ws_chunk {c : Str} (h : isWsChunk c = true) : nonWs c = [] := by
  simp only [isWsChunk, List.all_eq_true] at h
  simp only [nonWs, List.filter_eq_nil_iff]
  intro a ha
  simp [h a ha]

theorem nonWs_replicate_space (n : Nat) : nonWs (List.replicate n ' ') = [] := by
  apply nonWs_ws_chunk
  simp [isWsChunk, List.all_eq_true, isSpaceChar]

/-! ## Lemmas: `takeFit` -/

theorem takeFit_append (w : Nat) : ∀ (cur : Nat) (l : List Str),
    (takeFit w cur l).1 ++ (takeFit w cur l).2 = l
  | _, [] => rfl
  | cur, c :: cs => by
    simp only [takeFit]
    split
    · simpa using takeFit_append w (cur + c.length) cs
    · rfl

theorem takeFit_sumLen (w : Nat) : ∀ (cur : Nat) (l : List Str), cur ≤ w →
    cur + sumLen (takeFit w cur l).1 ≤ w
  | _, [], h => by simpa [takeFit, sumLen]
  | cur, c :: cs, h => by
    simp only [takeFit]
    split
    · next hfit =>
      have ih := takeFit_sumLen w (cur + c.length) cs hfit
      simp only [sumLen_cons]
      omega
    · simpa [sumLen]

theorem takeFit_cons_fit {w cur : Nat} {c : Str} {cs : List Str}
    (h : cur + c.length ≤ w) :
    takeFit w cur (c :: cs) =
      (c :: (takeFit w (cur + c.length) cs).1, (takeFit w (cur + c.length) cs).2) := by
  simp [takeFit, h]

theorem takeFit_cons_nofit {w cur : Nat} {c : Str} {cs : List Str}
    (h : ¬ cur + c.length ≤ w) :
    takeFit w cur (c :: cs) = ([], c :: cs) := by
  simp [takeFit, h]

theorem takeFit_fst_nil_snd {w cur : Nat} {l : List Str}
    (h : (takeFit w cur l).1 = []) : (takeFit w cur l).2 = l := by
  have happ := takeFit_append w cur l
  rw [h] at happ
  simpa using happ

theorem takeFit_fst_nil_head {w cur : Nat} {c : Str} {cs : List Str}
    (h : (takeFit w cur (c :: cs)).1 = []) : ¬ cur + c.length ≤ w := by
  intro hfit
  rw [takeFit_cons_fit hfit] at h
  simp at h

/-! ## Lemmas: `handleLong` -/

theorem handleLong_flatten (w : Nat) (p : List Str × List Str) :
    (handleLong w p).1.flatten ++ (handleLong w p).2.flatten =
      p.1.flatten ++ p.2.flatten := by
  obtain ⟨a, b⟩ := p
  match b with
  | [] => rfl
  | r :: rs =>
    simp only [handleLong]
    split
    · simp only [List.flatten_append, List.flatten_cons, List.flatten_nil,
        List.append_nil, List.append_assoc]
      rw [← List.append_assoc (r.take _), List.take_append_drop]
    · rfl

theorem sumLen_nil : sumLen ([] : List Str) = 0 := rfl

theorem handleLong_sumLen (w : Nat) (hw : 1 ≤ w) (p : List Str × List Str)
    (hp : sumLen p.1 ≤ w) : sumLen (handleLong w p).1 ≤ w := by
  obtain ⟨a, b⟩ := p
  dsimp only at hp
  match b with
  | [] => exact hp
  | r :: rs =>
    simp only [handleLong]
    split
    · have hw' : ¬ w < 1 := by omega
      simp only [hw', if_false, sumLen_append, sumLen_cons, sumLen_nil,
        List.length_take]
      omega
    · exact hp

theorem handleLong_snd_measure_le (w : Nat) (p : List Str × List Str) :
    chunksMeasure (handleLong w p).2 ≤ chunksMeasure p.2 := by
  obtain ⟨a, b⟩ := p
  match b with
  | [] => exact Nat.le_refl _
  | r :: rs =>
    simp only [handleLong]
    split
    · simp only [chunksMeasure_cons, List.length_drop]
      omega
    · exact Nat.le_refl _

theorem handleLong_snd_measure_lt (w : Nat) (r : Str) (rs : List Str)
    (hr : w < r.length) :
    chunksMeasure (handleLong w (([] : List Str), r :: rs)).2 <
      chunksMeasure (r :: rs) := by
  simp only [handleLong, hr, if_true]
  simp only [chunksMeasure_cons, List.length_drop, sumLen_nil]
  by_cases h1 : w < 1
  · simp only [h1, if_true]
    omega
  · simp only [h1, if_false]
    omega

/-! ## Lemmas: `dropLastWs` -/

theorem dropLastWs_eq (l : List Str) :
    dropLastWs l = l ∨
      ∃ c, isWsChunk c = true ∧ l = dropLastWs l ++ [c] := by
  rcases hl : l.getLast? with _ | c
  · left
    simp [dropLastWs, hl]
  · by_cases hws : isWsChunk c
    · right
      refine ⟨c, hws, ?_⟩
      have hne : l ≠ [] := by
        rintro rfl; simp at hl
      have hgl : l.getLast hne = c := by
        rw [List.getLast?_eq_getLast l hne] at hl
        exact Option.some_inj.mp hl
      have hdl : l.dropLast ++ [c] = l := by
        rw [← hgl]
        exact List.dropLast_append_getLast hne
      simp only [dropLastWs, hl, hws, if_true]
      exact hdl.symm
    · left
      simp [dropLastWs, hl, hws]

theorem dropLastWs_flatten_nonWs (l : List Str) :
    nonWs (dropLastWs l).flatten = nonWs l.flatten := by
  rcases dropLastWs_eq l with h | ⟨c, hws, h⟩
  · rw [h]
  · conv_rhs => rw [h]
    simp [List.flatten_append, nonWs_append, nonWs_ws_chunk hws]

theorem dropLastWs_sumLen (l : List Str) : sumLen (dropLastWs l) ≤ sumLen l := by
  rcases dropLastWs_eq l with h | ⟨c, _, h⟩
  · rw [h]
  · conv_rhs => rw [h]
    rw [sumLen_append]
    omega

theorem dropLastWs_flatten_isPre (l : List Str) :
    (dropLastWs l).flatten <+: l.flatten := by
  rcases dropLastWs_eq l with h | ⟨c, _, h⟩
  · rw [h]
  · conv_rhs => rw [h]
    simp [List.flatten_append]

theorem dropLastWs_nil_nonWs {l : List Str} (h : dropLastWs l = []) :
    nonWs l.flatten = [] := by
  rw [← dropLastWs_flatten_nonWs l, h]
  rfl

/-! ## The `_wrap_chunks` loop: one iteration strictly shrinks the measure -/

theorem wrapStep_measure_lt (w : Nat) (d : Str) (ds : List Str) :
    chunksMeasure (handleLong w (takeFit w 0 (d :: ds))).2 <
      chunksMeasure (d :: ds) := by
  by_cases hfst : (takeFit w 0 (d :: ds)).1 = []
  · have hno : ¬ 0 + d.length ≤ w := takeFit_fst_nil_head hfst
    have hdlen : w < d.length := by omega
    have hp : takeFit w 0 (d :: ds) = ([], d :: ds) := takeFit_cons_nofit hno
    rw [hp]
    exact handleLong_snd_measure_lt w d ds hdlen
  · have hfstpos : 1 ≤ chunksMeasure (takeFit w 0 (d :: ds)).1 := by
      match h2 : (takeFit w 0 (d :: ds)).1 with
      | [] => exact absurd h2 hfst
      | e :: es => exact chunksMeasure_pos e es
    have hmeas : chunksMeasure (takeFit w 0 (d :: ds)).1 +
        chunksMeasure (takeFit w 0 (d :: ds)).2 = chunksMeasure (d :: ds) := by
      rw [← chunksMeasure_append, takeFit_append]
    have h3 : chunksMeasure (handleLong w (takeFit w 0 (d :: ds))).2 ≤
        chunksMeasure (takeFit w 0 (d :: ds)).2 := handleLong_snd_measure_le _ _
    omega

theorem wrapStep_measure (w : Nat) (hasLines : Bool) (c0 : Str) (cs0 : List Str) :
    chunksMeasure
        (handleLong w (takeFit w 0
          (if hasLines && isWsChunk c0 then cs0 else c0 :: cs0))).2
      < chunksMeasure (c0 :: cs0) := by
  split
  · -- the leading whitespace chunk `c0` was dropped
    have hle : chunksMeasure (handleLong w (takeFit w 0 cs0)).2 ≤
        chunksMeasure cs0 := by
      match cs0 with
      | [] => exact Nat.le_refl _
      | d :: ds => exact Nat.le_of_lt (wrapStep_measure_lt w d ds)
    rw [chunksMeasure_cons]
    omega
  · exact wrapStep_measure_lt w c0 cs0

/-! ## Main properties of the `_wrap_chunks` loop -/

theorem wrap_chunksGo_nil (w fuel : Nat) (b : Bool) :
    wrap_chunksGo w fuel b [] = [] := by
  match fuel with
  | 0 => rfl
  | _ + 1 => rfl

/-- Every line the loop emits has at most `w` characters. -/
theorem wrap_chunksGo_length_le (w : Nat) (hw : 1 ≤ w) :
    ∀ (fuel : Nat) (b : Bool) (chunks : List Str) (c : Str),
      c ∈ wrap_chunksGo w fuel b chunks → c.length ≤ w := by
  intro fuel
  induction fuel with
  | zero =>
    intro b chunks c hc
    simp [wrap_chunksGo] at hc
  | succ fuel ih =>
    intro b chunks c hc
    match chunks with
    | [] => simp [wrap_chunksGo_nil] at hc
    | c0 :: cs0 =>
      simp only [wrap_chunksGo] at hc
      have hline : sumLen (dropLastWs (handleLong w (takeFit w 0
          (if b && isWsChunk c0 then cs0 else c0 :: cs0))).1) ≤ w := by
        have h1 := dropLastWs_sumLen (handleLong w (takeFit w 0
          (if b && isWsChunk c0 then cs0 else c0 :: cs0))).1
        have h2 : sumLen (handleLong w (takeFit w 0
            (if b && isWsChunk c0 then cs0 else c0 :: cs0))).1 ≤ w := by
          apply handleLong_sumLen w hw
          have h3 := takeFit_sumLen w 0
            (if b && isWsChunk c0 then cs0 else c0 :: cs0) (by omega)
          omega
        omega
      by_cases hemp : (dropLastWs (handleLong w (takeFit w 0
          (if b && isWsChunk c0 then cs0 else c0 :: cs0))).1).isEmpty
      · rw [if_pos hemp] at hc
        exact ih b _ c hc
      · rw [if_neg hemp] at hc
        rcases List.mem_cons.mp hc with rfl | hc'
        · rw [length_flatten_eq_sumLen]
          exact hline
        · exact ih true _ c hc'

/-- Every line the loop emits is a contiguous slice of the concatenated
chunks. -/
theorem wrap_chunksGo_isInfix (w : Nat) :
    ∀ (fuel : Nat) (b : Bool) (chunks : List Str) (c : Str),
      c ∈ wrap_chunksGo w fuel b chunks → c <:+: chunks.flatten := by
  intro fuel
  induction fuel with
  | zero =>
    intro b chunks c hc
    simp [wrap_chunksGo] at hc
  | succ fuel ih =>
    intro b chunks c hc
    match chunks with
    | [] => simp [wrap_chunksGo_nil] at hc
    | c0 :: cs0 =>
      simp only [wrap_chunksGo] at hc
      set chunks1 := if b && isWsChunk c0 then cs0 else c0 :: cs0 with hch
      have hflat : (handleLong w (takeFit w 0 chunks1)).1.flatten ++
          (handleLong w (takeFit w 0 chunks1)).2.flatten = chunks1.flatten := by
        rw [handleLong_flatten, ← List.flatten_append, takeFit_append]
      have hch1 : chunks1.flatten <:+ (c0 :: cs0).flatten := by
        rw [hch]
        split
        · rw [List.flatten_cons]
          exact List.suffix_append c0 cs0.flatten
        · exact List.suffix_refl _
      by_cases hemp : (dropLastWs (handleLong w (takeFit w 0 chunks1)).1).isEmpty
      · rw [if_pos hemp] at hc
        have h1 : c <:+: (handleLong w (takeFit w 0 chunks1)).2.flatten :=
          ih b _ c hc
        have h2 : (handleLong w (takeFit w 0 chunks1)).2.flatten <:+
            chunks1.flatten := by
          rw [← hflat]
          exact List.suffix_append _ _
        exact (h1.trans h2.isInfix).trans hch1.isInfix
      · rw [if_neg hemp] at hc
        rcases List.mem_cons.mp hc with rfl | hc'
        · have h1 : (dropLastWs (handleLong w (takeFit w 0 chunks1)).1).flatten <+:
              (handleLong w (takeFit w 0 chunks1)).1.flatten :=
            dropLastWs_flatten_isPre _
          have h2 : (handleLong w (takeFit w 0 chunks1)).1.flatten <+:
              chunks1.flatten := by
            rw [← hflat]
            exact List.prefix_append _ _
          exact ((h1.trans h2).isInfix).trans hch1.isInfix
        · have h1 : c <:+: (handleLong w (takeFit w 0 chunks1)).2.flatten :=
            ih true _ c hc'
          have h2 : (handleLong w (takeFit w 0 chunks1)).2.flatten <:+
              chunks1.flatten := by
            rw [← hflat]
            exact List.suffix_append _ _
          exact (h1.trans h2.isInfix).trans hch1.isInfix

/-- The loop drops only whitespace: the non-whitespace characters of the
emitted lines are exactly those of the chunks, in order. -/
theorem wrap_chunksGo_nonWs (w : Nat) :
    ∀ (fuel : Nat) (b : Bool) (chunks : List Str),
      chunksMeasure chunks < fuel →
      nonWs (wrap_chunksGo w fuel b chunks).flatten = nonWs chunks.flatten := by
  intro fuel
  induction fuel with
  | zero =>
    intro b chunks h
    exact absurd h (by omega)
  | succ fuel ih =>
    intro b chunks h
    match chunks with
    | [] => rw [wrap_chunksGo_nil]
    | c0 :: cs0 =>
      have hm := wrapStep_measure w b c0 cs0
      simp only [wrap_chunksGo]
      set chunks1 := if b && isWsChunk c0 then cs0 else c0 :: cs0 with hch
      have hchflat : nonWs chunks1.flatten = nonWs (c0 :: cs0).flatten := by
        rw [hch]
        split
        · next hdrop =>
          rw [List.flatten_cons, nonWs_append,
            nonWs_ws_chunk ((Bool.and_eq_true _ _).mp hdrop).2]
          simp
        · rfl
      have hflat : (handleLong w (takeFit w 0 chunks1)).1.flatten ++
          (handleLong w (takeFit w 0 chunks1)).2.flatten = chunks1.flatten := by
        rw [handleLong_flatten, ← List.flatten_append, takeFit_append]
      have hfuel2 : chunksMeasure (handleLong w (takeFit w 0 chunks1)).2 < fuel := by
        omega
      by_cases hemp : (dropLastWs (handleLong w (takeFit w 0 chunks1)).1).isEmpty
      · rw [if_pos hemp, ih b _ hfuel2]
        have hnil : nonWs (handleLong w (takeFit w 0 chunks1)).1.flatten = [] :=
          dropLastWs_nil_nonWs (List.isEmpty_iff.mp hemp)
        rw [← hchflat, ← hflat, nonWs_append, hnil]
        simp
      · rw [if_neg hemp, List.flatten_cons, nonWs_append, ih true _ hfuel2,
          dropLastWs_flatten_nonWs, ← hchflat, ← hflat, nonWs_append]

theorem isWsChunk_take {c : Str} (h : isWsChunk c = true) (n : Nat) :
    isWsChunk (c.take n) = true := by
  simp only [isWsChunk, List.all_eq_true] at h ⊢
  exact fun a ha => h a (List.take_subset n c ha)

theorem isWsChunk_drop {c : Str} (h : isWsChunk c = true) (n : Nat) :
    isWsChunk (c.drop n) = true := by
  simp only [isWsChunk, List.all_eq_true] at h ⊢
  exact fun a ha => h a (List.drop_subset n c ha)

theorem handleLong_single_long {w : Nat} {c : Str} (h : w < c.length) :
    handleLong w (([] : List Str), [c]) =
      ([c.take (if w < 1 then 1 else w)], [c.drop (if w < 1 then 1 else w)]) := by
  simp [handleLong, h, sumLen_nil]

/-- A single all-whitespace chunk produces no lines at all. -/
theorem wrap_chunksGo_wsChunk (w : Nat) :
    ∀ (fuel : Nat) (b : Bool) (c : Str), isWsChunk c = true →
      wrap_chunksGo w fuel b [c] = [] := by
  intro fuel
  induction fuel with
  | zero =>
    intro b c _
    rfl
  | succ fuel ih =>
    intro b c hws
    simp only [wrap_chunksGo]
    by_cases hdrop : (b && isWsChunk c) = true
    · rw [if_pos hdrop]
      simp [takeFit, handleLong, dropLastWs, wrap_chunksGo_nil]
    · rw [if_neg hdrop]
      by_cases hfit : 0 + c.length ≤ w
      · have ht : takeFit w 0 [c] = ([c], []) := by
          rw [takeFit_cons_fit hfit]
          rfl
        rw [ht]
        have hh : handleLong w ([c], ([] : List Str)) = ([c], []) := rfl
        rw [hh]
        have hdl : dropLastWs [c] = [] := by
          simp [dropLastWs, hws]
        rw [hdl]
        simpa using wrap_chunksGo_nil w fuel b
      · have hlen : w < c.length := by omega
        rw [takeFit_cons_nofit hfit, handleLong_single_long hlen]
        have hdl : dropLastWs [c.take (if w < 1 then 1 else w)] = [] := by
          simp [dropLastWs, isWsChunk_take hws]
        rw [hdl]
        simpa using ih b _ (isWsChunk_drop hws _)

/-! ## Lemmas: `split_chunks` -/

theorem split_chunksGo_nil (fuel : Nat) : split_chunksGo fuel [] = [] := by
  match fuel with
  | 0 => rfl
  | _ + 1 => rfl

theorem split_chunksGo_flatten : ∀ (fuel : Nat) (s : Str), s.length ≤ fuel →
    (split_chunksGo fuel s).flatten = s
  | 0, s, h => by
    have hs : s = [] := List.eq_nil_of_length_eq_zero (Nat.le_zero.mp h)
    subst hs
    rfl
  | _ + 1, [], _ => rfl
  | fuel + 1, c :: cs, h => by
    simp only [split_chunksGo, List.flatten_cons]
    have hdw : (c :: cs).dropWhile (wsClassEq c) = cs.dropWhile (wsClassEq c) := by
      rw [List.dropWhile_cons]
      simp [wsClassEq]
    have hlen : ((c :: cs).dropWhile (wsClassEq c)).length ≤ fuel := by
      rw [hdw]
      have hsub := (List.dropWhile_sublist (p := wsClassEq c) (l := cs)).length_le
      simp only [List.length_cons] at h
      omega
    rw [split_chunksGo_flatten fuel _ hlen, List.takeWhile_append_dropWhile]

theorem split_chunks_flatten (s : Str) : (split_chunks s).flatten = s :=
  split_chunksGo_flatten s.length s (Nat.le_refl _)

/-- A non-empty text whose characters all have the same whitespace class
is a single run. -/
theorem split_chunks_single (c : Char) (cs : Str)
    (hcl : ∀ a ∈ c :: cs, wsClassEq c a = true) :
    split_chunks (c :: cs) = [c :: cs] := by
  have hlen : (c :: cs).length = cs.length + 1 := List.length_cons c cs
  rw [split_chunks, hlen]
  simp only [split_chunksGo]
  rw [List.takeWhile_eq_self_iff.mpr hcl, List.dropWhile_eq_nil_iff.mpr hcl,
    split_chunksGo_nil]

theorem split_chunks_all_ws {s : Str} (hne : s ≠ [])
    (h : ∀ a ∈ s, isSpaceChar a = true) : split_chunks s = [s] := by
  match s with
  | [] => exact absurd rfl hne
  | c :: cs =>
    apply split_chunks_single
    intro a ha
    simp [wsClassEq, h c (List.mem_cons_self c cs), h a ha]

theorem split_chunks_all_nonws {s : Str} (hne : s ≠ [])
    (h : ∀ a ∈ s, isSpaceChar a = false) : split_chunks s = [s] := by
  match s with
  | [] => exact absurd rfl hne
  | c :: cs =>
    apply split_chunks_single
    intro a ha
    simp [wsClassEq, h c (List.mem_cons_self c cs), h a ha]

/-! ## Lemmas: `munge_whitespace` -/

theorem nonWs_cons (c : Char) (l : Str) :
    nonWs (c :: l) = if isSpaceChar c then nonWs l else c :: nonWs l := by
  by_cases h : isSpaceChar c <;> simp [nonWs, List.filter_cons, h]

theorem nonWs_expandTabsGo (ts : Nat) : ∀ (s : Str) (col : Nat),
    nonWs (expandTabsGo ts s col) = nonWs s
  | [], _ => rfl
  | c :: cs, col => by
    simp only [expandTabsGo]
    split
    · next htab =>
      subst htab
      split
      · rw [nonWs_append, nonWs_replicate_space, nonWs_expandTabsGo ts cs _]
        simp [nonWs_cons, isSpaceChar]
      · rw [nonWs_expandTabsGo ts cs col]
        simp [nonWs_cons, isSpaceChar]
    · split
      · next hnl =>
        have hws : isSpaceChar c = true := by
          rcases Bool.or_eq_true_iff.mp hnl with h | h
          · simp only [decide_eq_true_eq] at h
            simp [h, isSpaceChar]
          · simp only [decide_eq_true_eq] at h
            simp [h, isSpaceChar]
        rw [nonWs_cons, nonWs_cons, if_pos hws, if_pos hws,
          nonWs_expandTabsGo ts cs 0]
      · rw [nonWs_cons, nonWs_cons, nonWs_expandTabsGo ts cs (col + 1)]

theorem isSpaceChar_space : isSpaceChar ' ' = true := by decide

theorem nonWs_map_replaceWs : ∀ s : Str, nonWs (s.map replaceWsChar) = nonWs s
  | [] => rfl
  | c :: cs => by
    rw [List.map_cons, nonWs_cons, nonWs_cons, nonWs_map_replaceWs cs]
    cases h : isSpaceChar c with
    | true =>
      have hr : replaceWsChar c = ' ' := by rw [replaceWsChar, if_pos h]
      rw [hr]
      simp [h, isSpaceChar_space]
    | false =>
      have hr : replaceWsChar c = c := by
        rw [replaceWsChar, if_neg (by simp [h])]
      rw [hr]
      simp [h]

theorem nonWs_munge (s : Str) : nonWs (munge_whitespace s) = nonWs s := by
  rw [munge_whitespace, nonWs_map_replaceWs, expandTabs, nonWs_expandTabsGo]

theorem expandTabsGo_all_ws (ts : Nat) : ∀ (s : Str) (col : Nat),
    (∀ a ∈ s, isSpaceChar a = true) →
    ∀ a ∈ expandTabsGo ts s col, isSpaceChar a = true
  | [], _, _ => by simp [expandTabsGo]
  | c :: cs, col, h => by
    have hcs : ∀ a ∈ cs, isSpaceChar a = true :=
      fun a ha => h a (List.mem_cons_of_mem c ha)
    simp only [expandTabsGo]
    split
    · split
      · intro a ha
        rcases List.mem_append.mp ha with ha | ha
        · have := List.eq_of_mem_replicate ha
          simp [this, isSpaceChar]
        · exact expandTabsGo_all_ws ts cs _ hcs a ha
      · exact expandTabsGo_all_ws ts cs col hcs
    · split
      · intro a ha
        rcases List.mem_cons.mp ha with rfl | ha
        · exact h a (List.mem_cons_self a cs)
        · exact expandTabsGo_all_ws ts cs 0 hcs a ha
      · intro a ha
        rcases List.mem_cons.mp ha with rfl | ha
        · exact h a (List.mem_cons_self a cs)
        · exact expandTabsGo_all_ws ts cs (col + 1) hcs a ha

theorem munge_all_ws {s : Str} (h : ∀ a ∈ s, isSpaceChar a = true) :
    ∀ a ∈ munge_whitespace s, isSpaceChar a = true := by
  intro a ha
  rw [munge_whitespace] at ha
  obtain ⟨b, hb, rfl⟩ := List.mem_map.mp ha
  have hb' : isSpaceChar b = true := expandTabsGo_all_ws 8 s 0 h b hb
  have hr : replaceWsChar b = ' ' := by rw [replaceWsChar, if_pos hb']
  rw [hr]
  exact isSpaceChar_space

theorem munge_ne_nil {s : Str} (h : s ≠ []) : munge_whitespace s ≠ [] := by
  rw [munge_whitespace]
  simp only [ne_eq, List.map_eq_nil_iff]
  match s with
  | [] => exact absurd rfl h
  | c :: cs =>
    simp only [expandTabs, expandTabsGo]
    split
    · split
      · simp
      · next h8 => omega
    · split
      · simp
      · simp

/-! ## Lemmas: `wrap` -/

theorem wrap_mem_length_le {w : Nat} (hw : 1 ≤ w) {t c : Str}
    (hc : c ∈ wrap w t) : c.length ≤ w := by
  simp only [wrap] at hc
  exact wrap_chunksGo_length_le w hw _ _ _ c hc

theorem wrap_mem_isInfix {w : Nat} {t c : Str} (hc : c ∈ wrap w t) :
    c <:+: munge_whitespace t := by
  simp only [wrap] at hc
  have hinf := wrap_chunksGo_isInfix w _ _ _ c hc
  rwa [split_chunks_flatten] at hinf

theorem nonWs_wrap_flatten (w : Nat) (t : Str) :
    nonWs (wrap w t).flatten = nonWs t := by
  simp only [wrap]
  rw [wrap_chunksGo_nonWs w _ _ _ (by omega), split_chunks_flatten, nonWs_munge]

theorem wrap_all_ws {w : Nat} {t : Str} (h : ∀ a ∈ t, isSpaceChar a = true) :
    wrap w t = [] := by
  match t with
  | [] => rfl
  | c :: cs =>
    have hm := munge_all_ws h
    have hne : munge_whitespace (c :: cs) ≠ [] := munge_ne_nil (by simp)
    simp only [wrap]
    rw [split_chunks_all_ws hne hm]
    apply wrap_chunksGo_wsChunk
    simp only [isWsChunk, List.all_eq_true]
    exact hm

/-! ## Evaluating `wrap` on a single long word -/

theorem isWsChunk_false_of_nonws {c : Str} (hne : c ≠ [])
    (h : ∀ a ∈ c, isSpaceChar a = false) : isWsChunk c = false := by
  match c with
  | [] => exact absurd rfl hne
  | d :: ds =>
    simp only [isWsChunk, List.all_cons, h d (List.mem_cons_self d ds),
      Bool.false_and]

/-- A single non-whitespace chunk that fits becomes the single line. -/
theorem wrap_chunksGo_single_fit {w : Nat} {c : Str} (fuel : Nat) (b : Bool)
    (hne : c ≠ []) (hnws : ∀ a ∈ c, isSpaceChar a = false)
    (hfit : c.length ≤ w) :
    wrap_chunksGo w (fuel + 1) b [c] = [c] := by
  simp only [wrap_chunksGo]
  have hwsf : isWsChunk c = false := isWsChunk_false_of_nonws hne hnws
  rw [hwsf, Bool.and_false, if_neg (show ¬ (false = true) from by simp)]
  have ht : takeFit w 0 [c] = ([c], []) := by
    rw [takeFit_cons_fit (by omega)]
    rfl
  rw [ht]
  have hh : handleLong w ([c], ([] : List Str)) = ([c], []) := rfl
  rw [hh]
  have hdl : dropLastWs [c] = [c] := by
    simp [dropLastWs, hwsf]
  rw [hdl]
  rw [if_neg (by simp [List.isEmpty_cons, hne])]
  simp [wrap_chunksGo_nil]

/-- A single non-whitespace chunk longer than the width: the first `w`
characters become a line and the loop continues on the rest. -/
theorem wrap_chunksGo_single_long {w : Nat} {c : Str} (fuel : Nat) (b : Bool)
    (hw : 1 ≤ w) (hnws : ∀ a ∈ c, isSpaceChar a = false) (hlong : w < c.length) :
    wrap_chunksGo w (fuel + 1) b [c] =
      c.take w :: wrap_chunksGo w fuel true [c.drop w] := by
  simp only [wrap_chunksGo]
  have hne : c ≠ [] := by
    intro h
    subst h
    simp at hlong
  have hwsf : isWsChunk c = false := isWsChunk_false_of_nonws hne hnws
  rw [hwsf, Bool.and_false, if_neg (show ¬ (false = true) from by simp)]
  rw [takeFit_cons_nofit (by omega), handleLong_single_long hlong]
  have hif : (if w < 1 then 1 else w) = w := by
    rw [if_neg (by omega)]
  rw [hif]
  have htne : c.take w ≠ [] := by
    have hlen : 0 < (c.take w).length := by
      rw [List.length_take]
      omega
    exact List.length_pos.mp hlen
  have hth : isWsChunk (c.take w) = false :=
    isWsChunk_false_of_nonws htne (fun a ha => hnws a (List.take_subset w c ha))
  have hdl : dropLastWs [c.take w] = [c.take w] := by
    simp [dropLastWs, hth]
  rw [hdl]
  rw [if_neg (by simp [List.isEmpty_cons, htne])]
  simp

/-! ## `wrap` on `'a'`-runs (inputs used by the chunking scenarios) -/

theorem replicate_a_nonws (n : Nat) :
    ∀ a ∈ List.replicate n 'a', isSpaceChar a = false := by
  intro a ha
  rw [List.eq_of_mem_replicate ha]
  decide

theorem replicate_a_ne_nil {n : Nat} (h : 1 ≤ n) :
    List.replicate n 'a' ≠ [] := by
  intro hcon
  have hlen := congrArg List.length hcon
  simp at hlen
  omega

theorem expandTabsGo_replicate_a (ts : Nat) : ∀ (n col : Nat),
    expandTabsGo ts (List.replicate n 'a') col = List.replicate n 'a'
  | 0, _ => rfl
  | n + 1, col => by
    rw [List.replicate_succ]
    simp only [expandTabsGo]
    rw [if_neg (by decide), if_neg (by decide)]
    rw [expandTabsGo_replicate_a ts n (col + 1)]

theorem munge_replicate_a (n : Nat) :
    munge_whitespace (List.replicate n 'a') = List.replicate n 'a' := by
  rw [munge_whitespace, expandTabs, expandTabsGo_replicate_a, List.map_replicate]
  rw [show replaceWsChar 'a' = 'a' by decide]

theorem chunksMeasure_single (c : Str) : chunksMeasure [c] = c.length + 1 := by
  rw [chunksMeasure, sumLen, List.map_cons, List.map_nil, List.sum_cons,
    List.sum_nil, List.length_cons, List.length_nil]
  omega

theorem wrap_replicate_2001 :
    wrap GPT_CHUNK_SIZE (List.replicate 2001 'a') =
      [List.replicate 2000 'a', List.replicate 1 'a'] := by
  simp only [wrap, GPT_CHUNK_SIZE]
  rw [munge_replicate_a,
    split_chunks_all_nonws (replicate_a_ne_nil (by norm_num)) (replicate_a_nonws 2001)]
  rw [chunksMeasure_single, List.length_replicate]
  rw [show (2001 : Nat) + 1 + 1 = 2002 + 1 by norm_num]
  rw [wrap_chunksGo_single_long 2002 false (by norm_num) (replicate_a_nonws 2001)
    (by rw [List.length_replicate]; norm_num)]
  rw [List.take_replicate, List.drop_replicate]
  norm_num
  rw [show (2002 : Nat) = 2001 + 1 by norm_num]
  rw [wrap_chunksGo_single_fit 2001 true (by decide) (by decide) (by decide)]

theorem wrap_replicate_5000 :
    wrap GPT_CHUNK_SIZE (List.replicate 5000 'a') =
      [List.replicate 2000 'a', List.replicate 2000 'a',
        List.replicate 1000 'a'] := by
  simp only [wrap, GPT_CHUNK_SIZE]
  rw [munge_replicate_a,
    split_chunks_all_nonws (replicate_a_ne_nil (by norm_num)) (replicate_a_nonws 5000)]
  rw [chunksMeasure_single, List.length_replicate]
  rw [show (5000 : Nat) + 1 + 1 = 5001 + 1 by norm_num]
  rw [wrap_chunksGo_single_long 5001 false (by norm_num) (replicate_a_nonws 5000)
    (by rw [List.length_replicate]; norm_num)]
  rw [List.take_replicate, List.drop_replicate]
  norm_num
  rw [show (5001 : Nat) = 5000 + 1 by norm_num]
  rw [wrap_chunksGo_single_long 5000 true (by norm_num) (replicate_a_nonws 3000)
    (by rw [List.length_replicate]; norm_num)]
  rw [List.take_replicate, List.drop_replicate]
  norm_num
  rw [show (5000 : Nat) = 4999 + 1 by norm_num]
  rw [wrap_chunksGo_single_fit 4999 true (replicate_a_ne_nil (by norm_num))
    (replicate_a_nonws 1000) (by rw [List.length_replicate]; norm_num)]

/-! ## Lemmas: the cleanup loop -/

theorem cleanLoop_ok (complete : Str → Str → Except PError Str)
    (hok : ∀ s u, ∃ r, complete s u = Except.ok r) :
    ∀ l : List Str, ∃ rs, cleanLoop complete l = (Except.ok rs, l.length)
  | [] => ⟨[], rfl⟩
  | c :: cs => by
    obtain ⟨r, hr⟩ := hok systemContent (userContent c)
    obtain ⟨rs, hrs⟩ := cleanLoop_ok complete hok cs
    exact ⟨r :: rs, by simp [cleanLoop, hr, hrs, Except.map]⟩

theorem cleanLoop_error (complete : Str → Str → Except PError Str) :
    ∀ l : List Str,
      (∃ c ∈ l, ∃ e, complete systemContent (userContent c) = Except.error e) →
      ∃ e, (cleanLoop complete l).1 = Except.error e
  | [] => by
    rintro ⟨c, hc, _⟩
    simp at hc
  | c :: cs => by
    rintro ⟨d, hd, e, he⟩
    match hcall : complete systemContent (userContent c) with
    | Except.error e' => exact ⟨e', by simp [cleanLoop, hcall]⟩
    | Except.ok r =>
      rcases List.mem_cons.mp hd with rfl | hd'
      · rw [hcall] at he
        exact absurd he (by simp)
      · obtain ⟨e', he'⟩ := cleanLoop_error complete cs ⟨d, hd', e, he⟩
        refine ⟨e', ?_⟩
        simp only [cleanLoop, hcall]
        rw [he']
        rfl

theorem clean_text_of_ok (complete : Str → Str → Except PError Str)
    (hok : ∀ s u, ∃ r, complete s u = Except.ok r) (t : Str) :
    ∃ r, clean_text complete t = Except.ok r := by
  obtain ⟨rs, hrs⟩ := cleanLoop_ok complete hok (wrap GPT_CHUNK_SIZE t)
  exact ⟨joinNl rs, by simp [clean_text, hrs, Except.map]⟩

/-! ## Lemmas: the document append protocol -/

theorem append_text_content (s t : Str) :
    append_text ⟨s ++ ['\n']⟩ t = ⟨(s ++ t) ++ ['\n']⟩ := by
  simp only [append_text, lastEndIndex, insertText]
  congr 1
  have hlen : (s ++ ['\n']).length + 1 - 1 - 1 = s.length := by
    simp
  rw [hlen, List.take_left s ['\n'], List.drop_left s ['\n']]

theorem appendAll_content : ∀ (ts : List Str) (s : Str),
    (List.foldl append_text ⟨s ++ ['\n']⟩ ts).content = (s ++ ts.flatten) ++ ['\n']
  | [], s => by simp
  | t :: ts, s => by
    rw [List.foldl_cons, append_text_content, appendAll_content ts (s ++ t)]
    simp [List.flatten_cons]

theorem freshDoc_eq : freshDoc = ⟨[] ++ ['\n']⟩ := rfl

/-! ## Lemmas: the `process_files` loop -/

theorem fileOutcome_ok_fields (env : PipeEnv) (info : DocInfo) (dir f : Str)
    (r : ProcessingResult) (fmt : Str)
    (h : fileOutcome env info dir f = Except.ok (r, fmt)) :
    r.file = f ∧ r.doc_id = info.id ∧ r.doc_url = info.url := by
  rw [fileOutcome] at h
  match htr : env.transcribe (pathJoin dir f) with
  | Except.error e =>
    rw [htr] at h
    simp at h
  | Except.ok t =>
    rw [htr] at h
    dsimp only at h
    match hcl : clean_text env.complete t with
    | Except.error e =>
      rw [hcl] at h
      simp at h
    | Except.ok ct =>
      rw [hcl] at h
      dsimp only at h
      match hap : env.appendOk (formatEntry (fileMeta env dir f) ct) with
      | Except.error e =>
        rw [hap] at h
        simp at h
      | Except.ok u =>
        rw [hap] at h
        dsimp only at h
        simp only [Except.ok.injEq, Prod.mk.injEq] at h
        obtain ⟨hr, _⟩ := h
        rw [← hr]
        exact ⟨rfl, rfl, rfl⟩

theorem runFiles_ok (env : PipeEnv) (info : DocInfo) (dir : Str) :
    ∀ (fs : List Str) (doc : GDoc),
      (∀ f ∈ fs, ∃ o, fileOutcome env info dir f = Except.ok o) →
      ∃ rs : List ProcessingResult,
        (runFiles env info dir fs doc).1 = Except.ok rs ∧
        rs.map (fun r => r.file) = fs ∧
        ∀ r ∈ rs, r.doc_id = info.id ∧ r.doc_url = info.url
  | [], doc, _ => ⟨[], rfl, rfl, by simp⟩
  | f :: fs, doc, h => by
    obtain ⟨⟨r, fmt⟩, hf⟩ := h f (List.mem_cons_self f fs)
    obtain ⟨rs, h1, h2, h3⟩ := runFiles_ok env info dir fs (append_text doc fmt)
      (fun g hg => h g (List.mem_cons_of_mem f hg))
    obtain ⟨hfile, hid, hurl⟩ := fileOutcome_ok_fields env info dir f r fmt hf
    refine ⟨r :: rs, ?_, ?_, ?_⟩
    · simp only [runFiles, hf]
      rw [h1]
      rfl
    · rw [List.map_cons, hfile, h2]
    · intro x hx
      rcases List.mem_cons.mp hx with rfl | hx'
      · exact ⟨hid, hurl⟩
      · exact h3 x hx'

theorem runFiles_abort (env : PipeEnv) (info : DocInfo) (dir : Str) (f : Str)
    (post : List Str) (e : PError)
    (hf : fileOutcome env info dir f = Except.error e)
    (pre : List Str) (outs : List (ProcessingResult × Str))
    (hpre : List.Forall₂
      (fun g o => fileOutcome env info dir g = Except.ok o) pre outs) :
    ∀ doc : GDoc,
      runFiles env info dir (pre ++ f :: post) doc =
        (Except.error e, (outs.map Prod.snd).foldl append_text doc, pre ++ [f]) := by
  induction hpre with
  | nil =>
    intro doc
    simp only [List.nil_append, runFiles, hf, List.map_nil, List.foldl_nil]
  | cons hgo hrest ih =>
    intro doc
    next g o pre' outs' =>
    obtain ⟨r, fmt⟩ := o
    simp only [List.cons_append, runFiles, hgo, List.append_eq]
    rw [ih (append_text doc fmt)]
    simp [Except.map]

/-! ## Words of a text (maximal non-whitespace runs) -/

/-- The words of a text: its maximal non-whitespace runs, in order. -/
def wordsOf (s : Str) : List Str :=
  (split_chunks s).filter (fun c => !isWsChunk c)

theorem wordsOf_single_word {s : Str} (hne : s ≠ [])
    (h : ∀ a ∈ s, isSpaceChar a = false) : wordsOf s = [s] := by
  rw [wordsOf, split_chunks_all_nonws hne h]
  simp [List.filter, isWsChunk_false_of_nonws hne h]

/-! ## `joinNl` -/

theorem nonWs_joinNl : ∀ l : List Str, nonWs (joinNl l) = nonWs l.flatten
  | [] => rfl
  | [a] => by simp [joinNl, List.intersperse]
  | a :: b :: rest => by
    have ih := nonWs_joinNl (b :: rest)
    simp only [joinNl] at ih ⊢
    simp only [List.intersperse, List.flatten_cons, nonWs_append]
    rw [ih]
    rw [show nonWs "\n".data = [] from by decide]
    simp only [List.flatten_cons, nonWs_append, List.nil_append]

/-! ## Claim theorems -/

/-- C3 (counterexample): the claim "the splitter used by `clean` breaks
only at word boundaries and never in the middle of a word" is false: on
the 2001-character single word `'a' * 2001`, `textwrap.wrap` with width
`GPT_CHUNK_SIZE = 2000` emits the chunk `'a' * 2000`, whose word is not
a word of the (whitespace-normalized) input — the word was broken
mid-word. -/
theorem claim_C3_counterexample :
    ¬ (∀ c ∈ wrap GPT_CHUNK_SIZE (List.replicate 2001 'a'),
        c.length ≤ GPT_CHUNK_SIZE ∧
        ∀ word ∈ wordsOf c,
          word ∈ wordsOf (munge_whitespace (List.replicate 2001 'a'))) := by
  intro h
  have hmem : List.replicate 2000 'a' ∈ wrap GPT_CHUNK_SIZE (List.replicate 2001 'a') := by
    rw [wrap_replicate_2001]
    exact List.mem_cons_self _ _
  obtain ⟨-, hww⟩ := h _ hmem
  have hw1 : wordsOf (List.replicate 2000 'a') = [List.replicate 2000 'a'] :=
    wordsOf_single_word (replicate_a_ne_nil (by norm_num)) (replicate_a_nonws 2000)
  have hw2 : wordsOf (munge_whitespace (List.replicate 2001 'a')) =
      [List.replicate 2001 'a'] := by
    rw [munge_replicate_a]
    exact wordsOf_single_word (replicate_a_ne_nil (by norm_num)) (replicate_a_nonws 2001)
  have hmm := hww (List.replicate 2000 'a') (by rw [hw1]; exact List.mem_cons_self _ _)
  rw [hw2] at hmm
  rcases List.mem_cons.mp hmm with heq | hmm'
  · have hlen := congrArg List.length heq
    rw [List.length_replicate, List.length_replicate] at hlen
    omega
  · exact absurd hmm' (List.not_mem_nil _)

/-- C3 (amended): the splitter used by `clean` produces an ordered
sequence of chunks, each of length at most `GPT_CHUNK_SIZE = 2000`
characters and each a contiguous verbatim slice of the
whitespace-normalized input; breaks are not always at word boundaries —
a word longer than the chunk size is broken mid-word (see the
counterexample). -/
theorem claim_C3_amended (t : Str) (c : Str) (hc : c ∈ wrap GPT_CHUNK_SIZE t) :
    c.length ≤ GPT_CHUNK_SIZE ∧ c <:+: munge_whitespace t :=
  ⟨wrap_mem_length_le (by norm_num [GPT_CHUNK_SIZE]) hc, wrap_mem_isInfix hc⟩

/-- C3 (witness): the amended claim evaluated on the concrete input
`"hello world"`, whose single chunk is the whole text. -/
theorem claim_C3_amended_witness :
    ("hello world".data ∈ wrap GPT_CHUNK_SIZE "hello world".data) ∧
    ("hello world".data.length ≤ GPT_CHUNK_SIZE ∧
      "hello world".data <:+: munge_whitespace "hello world".data) :=
  ⟨by decide, claim_C3_amended "hello world".data "hello world".data (by decide)⟩

/-- C4 (counterexample): the claim "rejoining the unmodified chunks
reproduces T exactly, up to whitespace normalization occurring only at
the chunk boundaries (the interior of each chunk is unchanged)" is
false: for `T = "ab\ncd"` the splitter produces the single chunk
`"ab cd"` — there are no chunk boundaries at all, yet the rejoined text
differs from `T`, and the chunk is not a verbatim slice of `T` (its
interior newline was replaced by a space). -/
theorem claim_C4_counterexample :
    wrap GPT_CHUNK_SIZE "ab\ncd".data = ["ab cd".data] ∧
    joinNl ["ab cd".data] ≠ "ab\ncd".data ∧
    ¬ ("ab cd".data <:+: "ab\ncd".data) := by
  refine ⟨by decide, by decide, by decide⟩

/-- C4 (amended): splitting T with the word-boundary splitter and
rejoining the unmodified chunks with the newline separator reproduces T
up to whitespace normalization, which may occur anywhere in the text
(not only at chunk boundaries): the subsequence of non-whitespace
characters is preserved exactly, in order. -/
theorem claim_C4_amended (t : Str) :
    nonWs (joinNl (wrap GPT_CHUNK_SIZE t)) = nonWs t := by
  rw [nonWs_joinNl, nonWs_wrap_flatten]

/-- The always-succeeding completion oracle used by the C5 counterexample. -/
def okComplete : Str → Str → Except PError Str :=
  fun _ _ => Except.ok "x".data

/-- C5 (counterexample): the claim "for every 5000-character input
string, `clean` with chunk size 2000 issues exactly 3 provider
completion calls" is false: on the 5000-character all-whitespace string
`' ' * 5000` the splitter produces no chunks and `clean` issues 0
calls. -/
theorem claim_C5_counterexample :
    ¬ (∀ t : Str, t.length = 5000 → cleanCallCount okComplete t = 3) := by
  intro h
  have h3 := h (List.replicate 5000 ' ') (by rw [List.length_replicate])
  have h0 : cleanCallCount okComplete (List.replicate 5000 ' ') = 0 := by
    rw [cleanCallCount,
      wrap_all_ws (fun a ha => by rw [List.eq_of_mem_replicate ha]; rfl)]
    rfl
  omega

/-- C5 (amended): on a 5000-character input consisting of a single
non-whitespace word (5000 repetitions of the letter `'a'`), `clean`
with chunk size `GPT_CHUNK_SIZE = 2000` issues exactly 3 provider
completion calls — on the chunks of 2000, 2000 and 1000 characters —
and returns exactly the 3 returned chunk texts joined with a single
newline separator in chunk order.  (Not every 5000-character string
behaves this way: see the counterexample.) -/
theorem claim_C5_amended (f : Str → Str → Str) :
    clean_text (fun s u => Except.ok (f s u)) (List.replicate 5000 'a') =
      Except.ok (f systemContent (userContent (List.replicate 2000 'a')) ++
        '\n' :: (f systemContent (userContent (List.replicate 2000 'a')) ++
          '\n' :: f systemContent (userContent (List.replicate 1000 'a')))) ∧
    cleanCallCount (fun s u => Except.ok (f s u)) (List.replicate 5000 'a') = 3 := by
  rw [clean_text, cleanCallCount, wrap_replicate_5000]
  simp only [cleanLoop, Except.map, joinNl, List.intersperse, List.flatten_cons,
    List.flatten_nil, List.append_nil, List.singleton_append, List.nil_append]
  exact ⟨trivial, trivial⟩

/-- C6: if the provider call for any chunk fails, `clean_text` fails
with that provider error; since the result is the error alone, no
partial cleaned text is returned to the caller. -/
theorem claim_C6_clean_text_error (complete : Str → Str → Except PError Str)
    (t : Str)
    (h : ∃ c ∈ wrap GPT_CHUNK_SIZE t,
      ∃ e, complete systemContent (userContent c) = Except.error e) :
    ∃ e, clean_text complete t = Except.error e := by
  obtain ⟨e, he⟩ := cleanLoop_error complete _ h
  exact ⟨e, by rw [clean_text, he]; rfl⟩

/-- The always-failing completion oracle used by the C6 witness. -/
def failComplete : Str → Str → Except PError Str :=
  fun _ _ => Except.error PError.cleanupError

/-- C6 (witness): the theorem evaluated on the concrete input `"hi"`
with an oracle whose calls fail. -/
theorem claim_C6_witness :
    (∃ c ∈ wrap GPT_CHUNK_SIZE "hi".data,
      ∃ e, failComplete systemContent (userContent c) = Except.error e) ∧
    ∃ e, clean_text failComplete "hi".data = Except.error e :=
  ⟨⟨"hi".data, by decide, PError.cleanupError, rfl⟩,
    claim_C6_clean_text_error failComplete "hi".data
      ⟨"hi".data, by decide, PError.cleanupError, rfl⟩⟩

/-- C10: on an input consisting entirely of whitespace (including the
empty string), the splitter produces an empty chunk sequence, so
`clean_text` issues zero provider calls and returns the empty string. -/
theorem claim_C10_whitespace_input (complete : Str → Str → Except PError Str)
    (t : Str) (h : ∀ a ∈ t, isSpaceChar a = true) :
    wrap GPT_CHUNK_SIZE t = [] ∧
    cleanCallCount complete t = 0 ∧
    clean_text complete t = Except.ok [] := by
  have hw := wrap_all_ws (w := GPT_CHUNK_SIZE) h
  refine ⟨hw, ?_, ?_⟩
  · rw [cleanCallCount, hw]
    rfl
  · rw [clean_text, hw]
    rfl

/-- C10 (witness): the theorem evaluated on the concrete whitespace
string `" \t\n"`. -/
theorem claim_C10_witness :
    (∀ a ∈ " \t\n".data, isSpaceChar a = true) ∧
    (wrap GPT_CHUNK_SIZE " \t\n".data = [] ∧
      cleanCallCount okComplete " \t\n".data = 0 ∧
      clean_text okComplete " \t\n".data = Except.ok []) :=
  ⟨by decide, claim_C10_whitespace_input okComplete " \t\n".data (by decide)⟩

/-- Building a successful `fileOutcome` from successful provider calls. -/
theorem fileOutcome_ok_build (env : PipeEnv) (info : DocInfo) (dir f t ct : Str)
    (htr : env.transcribe (pathJoin dir f) = Except.ok t)
    (hcl : clean_text env.complete t = Except.ok ct)
    (hap : env.appendOk (formatEntry (fileMeta env dir f) ct) = Except.ok ()) :
    fileOutcome env info dir f =
      Except.ok (⟨f, ct, info.id, info.url⟩, formatEntry (fileMeta env dir f) ct) := by
  rw [fileOutcome, htr]
  dsimp only
  rw [hcl]
  dsimp only
  rw [hap]

/-- C9: `append_text` fetches the document, computes the insertion index
as one less than the `endIndex` of the last content block, and issues a
single insert-text request there; consequently, appending the texts `ts`
one after another to a freshly created document leaves the document's
body equal to the concatenation of the texts in call order (followed by
the document's implicit trailing newline). -/
theorem claim_C9_append_concat (ts : List Str) :
    (List.foldl append_text freshDoc ts).content = ts.flatten ++ ['\n'] := by
  rw [freshDoc_eq, appendAll_content]
  simp

/-- C1: when every transcription, cleanup and append call succeeds on a
non-empty file list, `process_files` returns a result list whose order
equals the input file order and whose length equals the number of input
files, and every result carries the id and URL
`https://docs.google.com/document/d/<id>/edit` of the single document
created once at the start of the run.  (The non-emptiness hypothesis
mirrors the claim's precondition; the conclusion holds for the empty
list as well.) -/
theorem claim_C1_process_files_success (env : PipeEnv) (files : List Str)
    (dir : Str) (title : Option Str)
    (hne : files ≠ [])
    (htr : ∀ f ∈ files, ∃ t, env.transcribe (pathJoin dir f) = Except.ok t)
    (hcl : ∀ s u, ∃ r, env.complete s u = Except.ok r)
    (hap : ∀ s, env.appendOk s = Except.ok ()) :
    ∃ rs : List ProcessingResult,
      (process_files env files dir title).1 = Except.ok rs ∧
      rs.length = files.length ∧
      rs.map (fun r => r.file) = files ∧
      ∀ r ∈ rs, r.doc_id = env.docId ∧
        r.doc_url = "https://docs.google.com/document/d/".data ++ env.docId ++
          "/edit".data := by
  have hall : ∀ f ∈ files, ∃ o,
      fileOutcome env (create_document env (title.getD env.now)) dir f =
        Except.ok o := by
    intro f hf
    obtain ⟨t, ht⟩ := htr f hf
    obtain ⟨ct, hct⟩ := clean_text_of_ok env.complete hcl t
    exact ⟨_, fileOutcome_ok_build env _ dir f t ct ht hct (hap _)⟩
  obtain ⟨rs, h1, h2, h3⟩ :=
    runFiles_ok env (create_document env (title.getD env.now)) dir files
      freshDoc hall
  refine ⟨rs, h1, ?_, h2, ?_⟩
  · have := congrArg List.length h2
    simpa using this
  · intro r hr
    have hfield := h3 r hr
    simpa [create_document, docUrl] using hfield

/-- The environment of the C1 and C2 witnesses: the provider assigns
document id `"D"`, every stat yields modification time `"m"`, every
transcription returns `"t"` and every completion returns `"c"`. -/
def wEnv : PipeEnv where
  docId := "D".data
  now := "N".data
  mtime := fun _ => "m".data
  transcribe := fun _ => Except.ok "t".data
  complete := fun _ _ => Except.ok "c".data
  appendOk := fun _ => Except.ok ()

/-- C1 (witness): the theorem evaluated on the concrete run
`["a.mp3", "b.mp3"]`. -/
theorem claim_C1_witness :
    ((["a.mp3".data, "b.mp3".data] : List Str) ≠ [] ∧
      (∀ f ∈ (["a.mp3".data, "b.mp3".data] : List Str),
        ∃ t, wEnv.transcribe (pathJoin "dir".data f) = Except.ok t) ∧
      (∀ s u, ∃ r, wEnv.complete s u = Except.ok r) ∧
      (∀ s, wEnv.appendOk s = Except.ok ())) ∧
    ∃ rs : List ProcessingResult,
      (process_files wEnv ["a.mp3".data, "b.mp3".data] "dir".data none).1 =
        Except.ok rs ∧
      rs.length = (["a.mp3".data, "b.mp3".data] : List Str).length ∧
      rs.map (fun r => r.file) = ["a.mp3".data, "b.mp3".data] ∧
      ∀ r ∈ rs, r.doc_id = wEnv.docId ∧
        r.doc_url = "https://docs.google.com/document/d/".data ++ wEnv.docId ++
          "/edit".data :=
  ⟨⟨by decide, fun f _ => ⟨"t".data, rfl⟩, fun s u => ⟨"c".data, rfl⟩,
      fun s => rfl⟩,
    claim_C1_process_files_success wEnv ["a.mp3".data, "b.mp3".data]
      "dir".data none (by decide) (fun f _ => ⟨"t".data, rfl⟩)
      (fun s u => ⟨"c".data, rfl⟩) (fun s => rfl)⟩

/-- C2: if every call succeeds for the files `pre` but transcription,
cleanup or append fails for the next file `f`, then the run aborts
immediately: the caller receives the error (no result list, not even a
partial one), the appends already performed for `pre` remain in the
document (the final document body is exactly their formatted texts, not
rolled back), and the files after `f` are never attempted (the attempted
list is exactly `pre ++ [f]`). -/
theorem claim_C2_process_files_abort (env : PipeEnv) (dir : Str)
    (title : Option Str) (pre : List Str) (f : Str) (post : List Str)
    (e : PError) (outs : List (ProcessingResult × Str))
    (hpre : List.Forall₂ (fun g o =>
      fileOutcome env (create_document env (title.getD env.now)) dir g =
        Except.ok o) pre outs)
    (hf : fileOutcome env (create_document env (title.getD env.now)) dir f =
      Except.error e) :
    (process_files env (pre ++ f :: post) dir title).1 = Except.error e ∧
    (process_files env (pre ++ f :: post) dir title).2.2 = pre ++ [f] ∧
    (process_files env (pre ++ f :: post) dir title).2.1.content =
      (outs.map Prod.snd).flatten ++ ['\n'] := by
  have h := runFiles_abort env (create_document env (title.getD env.now)) dir f
    post e hf pre outs hpre freshDoc
  simp only [process_files]
  rw [h]
  refine ⟨rfl, rfl, ?_⟩
  rw [freshDoc_eq, appendAll_content]
  simp

/-- The environment of the C2 witness: like `wEnv`, but transcription of
the file `"b"` under directory `"dir"` fails. -/
def wEnv2 : PipeEnv where
  docId := "D".data
  now := "N".data
  mtime := fun _ => "m".data
  transcribe := fun p =>
    if p = "dir/b".data then Except.error PError.transcriptionError
    else Except.ok "t".data
  complete := fun _ _ => Except.ok "c".data
  appendOk := fun _ => Except.ok ()

/-- The successful first-file outcome of the C2 witness run. -/
def wRes : ProcessingResult :=
  ⟨"a".data, "c".data, "D".data, "https://docs.google.com/document/d/D/edit".data⟩

/-- The formatted text the C2 witness run appends for its first file. -/
def wFmt : Str := "a m\n\nc\n---\n\n".data

/-- C2 (witness): the theorem evaluated on the concrete run
`["a", "b", "z"]` whose second file fails to transcribe. -/
theorem claim_C2_witness :
    (List.Forall₂ (fun g o =>
        fileOutcome wEnv2 (create_document wEnv2 ((none : Option Str).getD wEnv2.now))
          "dir".data g = Except.ok o) ["a".data] [(wRes, wFmt)] ∧
      fileOutcome wEnv2 (create_document wEnv2 ((none : Option Str).getD wEnv2.now))
        "dir".data "b".data = Except.error PError.transcriptionError) ∧
    ((process_files wEnv2 (["a".data] ++ "b".data :: ["z".data]) "dir".data none).1 =
        Except.error PError.transcriptionError ∧
      (process_files wEnv2 (["a".data] ++ "b".data :: ["z".data]) "dir".data none).2.2 =
        ["a".data] ++ ["b".data] ∧
      (process_files wEnv2 (["a".data] ++ "b".data :: ["z".data]) "dir".data none).2.1.content =
        ([(wRes, wFmt)].map Prod.snd).flatten ++ ['\n']) :=
  ⟨⟨List.Forall₂.cons rfl List.Forall₂.nil, rfl⟩,
    claim_C2_process_files_abort wEnv2 "dir".data none ["a".data] "b".data
      ["z".data] PError.transcriptionError [(wRes, wFmt)]
      (List.Forall₂.cons rfl List.Forall₂.nil) rfl⟩

/-- C7 (counterexample): the claim "a corrupt persisted token file is
treated as absent, the run falls through to the interactive consent
flow, and the corrupt-file case never raises to the caller" is false:
in an environment whose only defect is the corrupt token file (the
consent flow and the token write would succeed), `_get_credentials`
surfaces the parse error, while the same environment with the file
absent succeeds via the consent flow. -/
theorem claim_C7_counterexample :
    get_credentials
        ⟨TokenFile.corrupt, fun c => Except.ok c,
          Except.ok ⟨"F".data, true, false, false⟩, true⟩ =
      Except.error AuthError.parseError ∧
    get_credentials
        ⟨TokenFile.absent, fun c => Except.ok c,
          Except.ok ⟨"F".data, true, false, false⟩, true⟩ =
      Except.ok (⟨"F".data, true, false, false⟩,
        [AuthEvent.flowCall, AuthEvent.tokenWrite]) :=
  ⟨rfl, rfl⟩

/-- C7 (amended): a corrupt persisted token file is not treated as
absent: the credential-parse error propagates to the caller of
`_get_credentials` and the interactive consent flow is not attempted. -/
theorem claim_C7_amended (env : AuthEnv)
    (h : env.tokenFile = TokenFile.corrupt) :
    get_credentials env = Except.error AuthError.parseError := by
  rw [get_credentials, h]

/-- C7 (witness): the amended theorem evaluated on a concrete
environment with a corrupt token file. -/
theorem claim_C7_amended_witness :
    (AuthEnv.tokenFile
        ⟨TokenFile.corrupt, fun c => Except.ok c,
          Except.ok ⟨"F".data, true, false, false⟩, true⟩ = TokenFile.corrupt) ∧
    get_credentials
        ⟨TokenFile.corrupt, fun c => Except.ok c,
          Except.ok ⟨"F".data, true, false, false⟩, true⟩ =
      Except.error AuthError.parseError :=
  ⟨rfl, claim_C7_amended _ rfl⟩

/-- C8: if the persisted credential loads successfully and is valid (and
unexpired), `_get_credentials` performs no refresh call, no consent-flow
call and no token-file write (the event list is empty) and returns the
loaded credential unchanged.  (The code tests only `creds.valid`; the
unexpired hypothesis mirrors the claim's wording.) -/
theorem claim_C8_valid_credential (env : AuthEnv) (c : Creds)
    (hload : env.tokenFile = TokenFile.parsed c)
    (hvalid : c.valid = true) (hunexpired : c.expired = false) :
    get_credentials env = Except.ok (c, []) := by
  rw [get_credentials, hload]
  simp [hvalid]

/-- C8 (witness): the theorem evaluated on a concrete environment whose
persisted credential is valid and unexpired. -/
theorem claim_C8_witness :
    (AuthEnv.tokenFile
        ⟨TokenFile.parsed ⟨"G".data, true, false, true⟩, fun c => Except.ok c,
          Except.ok ⟨"F".data, true, false, false⟩, true⟩ =
      TokenFile.parsed ⟨"G".data, true, false, true⟩) ∧
    (Creds.valid ⟨"G".data, true, false, true⟩ = true) ∧
    (Creds.expired ⟨"G".data, true, false, true⟩ = false) ∧
    get_credentials
        ⟨TokenFile.parsed ⟨"G".data, true, false, true⟩, fun c => Except.ok c,
          Except.ok ⟨"F".data, true, false, false⟩, true⟩ =
      Except.ok (⟨"G".data, true, false, true⟩, []) :=
  ⟨rfl, rfl, rfl, claim_C8_valid_credential _ _ rfl rfl rfl⟩

end VMemo
